import Mathlib

/-!
Shallow embedding of `onnxruntime_extensions/pnp/_utils.py` (class
`ONNXModelUtils`): graph renaming, model-node unfolding, topological
sorting, dead-initializer pruning and model joining, together with
proofs checking the specification's claims against this code.

Python protobuf objects become Lean records; in-place mutation becomes
explicit value passing; Python exceptions become `Except` errors.
-/

set_option maxRecDepth 4000

namespace OnnxUtils

/-- An opset requirement: a (domain, version) pair (`opset_import` entry). -/
structure Opset where
  domain : String
  version : Int
deriving DecidableEq, Repr

/-- A named constant tensor (graph initializer).  The tensor payload is
abstracted to an integer; only the name is inspected by the code. -/
structure Init where
  name : String
  data : Int
deriving DecidableEq, Repr

/-- A named value-info / input / output declaration.  The type metadata is
abstracted to an integer; only the name is inspected by the code. -/
structure Vi where
  name : String
  ty : Int
deriving DecidableEq, Repr

mutual
/-- A node attribute (protobuf `AttributeProto`): a name, a (possibly
default/empty) nested graph `g`, and an abstracted scalar payload `i`. -/
inductive Attr where
  | mk (name : String) (g : Graph) (i : Int)

/-- An operator node (protobuf `NodeProto`), extended with the optional
`model` field that the pnp layer attaches to "model nodes"
(`hasattr(node, 'model')` in the source becomes `model.isSome`).
The Python field `attribute` is spelled `attrs` here (`attribute` is a
Lean keyword). -/
inductive Node where
  | mk (name : String) (op_type : String) (input : List String)
       (output : List String) (attrs : List Attr) (model : Option Model)

/-- A computation graph (protobuf `GraphProto`). -/
inductive Graph where
  | mk (node : List Node) (name : String) (input : List Vi) (output : List Vi)
       (initializer : List Init) (value_info : List Vi)

/-- A model (protobuf `ModelProto`): a graph plus opset imports. -/
inductive Model where
  | mk (graph : Graph) (opset_import : List Opset)
end

def Attr.name : Attr → String
  | .mk n _ _ => n

def Attr.g : Attr → Graph
  | .mk _ g _ => g

def Attr.i : Attr → Int
  | .mk _ _ i => i

def Node.name : Node → String
  | .mk n _ _ _ _ _ => n

def Node.op_type : Node → String
  | .mk _ t _ _ _ _ => t

def Node.input : Node → List String
  | .mk _ _ i _ _ _ => i

def Node.output : Node → List String
  | .mk _ _ _ o _ _ => o

def Node.attrs : Node → List Attr
  | .mk _ _ _ _ a _ => a

def Node.model : Node → Option Model
  | .mk _ _ _ _ _ m => m

def Graph.node : Graph → List Node
  | .mk n _ _ _ _ _ => n

def Graph.name : Graph → String
  | .mk _ n _ _ _ _ => n

def Graph.input : Graph → List Vi
  | .mk _ _ i _ _ _ => i

def Graph.output : Graph → List Vi
  | .mk _ _ _ o _ _ => o

def Graph.initializer : Graph → List Init
  | .mk _ _ _ _ i _ => i

def Graph.value_info : Graph → List Vi
  | .mk _ _ _ _ _ v => v

def Model.graph : Model → Graph
  | .mk g _ => g

def Model.opset_import : Model → List Opset
  | .mk _ o => o

/-- `ONNXModelUtils.merge_name`: `"{}_{}".format(prefix, name)`. -/
def merge_name (pfx nm : String) : String :=
  pfx ++ "_" ++ nm

/-- Duck-typed access to the `.name` attribute, as used by
`_rename_iter` on initializers and value-info records alike. -/
class HasName (α : Type) where
  getName : α → String
  setName : α → String → α

instance : HasName Init where
  getName := Init.name
  setName i s := { i with name := s }

instance : HasName Vi where
  getName := Vi.name
  setName v s := { v with name := s }

/-- `ONNXModelUtils._rename_iter`: rename every entry of the collection by
prefixing.  The Python `inplace` flag only controls object aliasing; in the
pure embedding both modes return the renamed list. -/
def rename_iter {α : Type} [HasName α] (iterables : List α) (pfxName : String) : List α :=
  iterables.map fun iz => HasName.setName iz (merge_name pfxName (HasName.getName iz))

/-- The nested `io_rename` of `ONNXModelUtils._rename_graph`: deep-copy the
node, synthesize `prefix_op<idx>` when the node name is empty (else prefix
it), and prefix every non-empty input/output tensor reference. -/
def io_rename (node : Node) (pfxName : String) (idx : Nat) : Node :=
  Node.mk
    (if node.name = "" then merge_name pfxName ("op" ++ toString idx)
     else merge_name pfxName node.name)
    node.op_type
    (node.input.map fun nm => if nm = "" then "" else merge_name pfxName nm)
    (node.output.map fun nm => if nm = "" then "" else merge_name pfxName nm)
    node.attrs
    node.model

/-- The node list returned by `ONNXModelUtils._rename_graph`
(`io_rename(nd_, prefix, idx_) for idx_, nd_ in enumerate(graph.node)`). -/
def rename_graph_nodes (g : Graph) (pfx : String) : List Node :=
  g.node.enum.map fun p => io_rename p.2 pfx p.1

/-- `ONNXModelUtils._rename_graph`: the source extends the container's
`initializer`/`value_info` lists with renamed copies and returns the renamed
node list; the embedding returns the renamed nodes together with the two
extended accumulator lists. -/
def rename_graph (g : Graph) (pfx : String) (initAcc : List Init) (viAcc : List Vi) :
    List Node × List Init × List Vi :=
  (rename_graph_nodes g pfx,
   initAcc ++ rename_iter g.initializer pfx,
   viAcc ++ rename_iter g.value_info pfx)

/-- The nested `_process_attr` of `ONNXModelUtils._process_node_body`: an
attribute named `body` gets its nested graph's `value_info` and `node` lists
cleared and rebuilt through `_rename_graph` (which also appends renamed
initializers/value-info records to the subgraph), and its declared
inputs/outputs renamed in place; any other attribute is returned unchanged. -/
def process_attr (a : Attr) (pfxName : String) : Attr :=
  if a.name = "body" then
    let res := rename_graph a.g pfxName a.g.initializer []
    Attr.mk a.name
      (Graph.mk res.1 a.g.name (rename_iter a.g.input pfxName)
        (rename_iter a.g.output pfxName) res.2.1 res.2.2)
      a.i
  else a

/-- `ONNXModelUtils._process_node_body`: if no attribute is named `body`,
return the node untouched; otherwise rebuild the attribute list through
`_process_attr`. -/
def process_node_body (node : Node) (pfxName : String) : Node :=
  if node.attrs.all fun a => a.name ≠ "body" then node
  else
    Node.mk node.name node.op_type node.input node.output
      (node.attrs.map fun a => process_attr a pfxName) node.model

/-- The pnp container object threaded through `unfold_model_node` and
`topological_sort` (its class lives outside this file's sources; only the
attributes the code reads are modelled): the node list, the optional parent
container, the `node_domain_version_pair_sets` set (`ndvps`), the
`initializer`/`value_info` accumulators extended by `_rename_graph`, and the
`initializers` list read by `topological_sort`. -/
inductive Container where
  | mk (nodes : List Node) (parent : Option Container)
       (ndvps : List (String × Int)) (initializer : List Init)
       (value_info : List Vi) (initializers : List Init)

def Container.nodes : Container → List Node
  | .mk n _ _ _ _ _ => n

def Container.parent : Container → Option Container
  | .mk _ p _ _ _ _ => p

def Container.ndvps : Container → List (String × Int)
  | .mk _ _ s _ _ _ => s

def Container.initializer : Container → List Init
  | .mk _ _ _ i _ _ => i

def Container.value_info : Container → List Vi
  | .mk _ _ _ _ v _ => v

def Container.initializers : Container → List Init
  | .mk _ _ _ _ _ iz => iz

/-- The `while top_containter.parent is not None` walk of
`unfold_model_node`. -/
def Container.top : Container → Container
  | .mk n none s i v iz => .mk n none s i v iz
  | .mk _ (some p) _ _ _ _ => p.top

/-- One assignment step of the Python dict comprehension
`{node.name: node for node in nodes ...}`: an existing key keeps its
position but takes the new value, a new key is appended. -/
def upsertByName (acc : List Node) (n : Node) : List Node :=
  if acc.any fun m => m.name = n.name then
    acc.map fun m => if m.name = n.name then n else m
  else acc ++ [n]

/-- The `model_nodes` dict of `unfold_model_node`, as its value list in
key-insertion order. -/
def model_nodes_list (nodes : List Node) : List Node :=
  (nodes.filter fun n => n.model.isSome).foldl upsertByName []

/-- The key set of the `model_nodes` dict: names of nodes carrying a
`model` attribute. -/
def model_node_names (nodes : List Node) : List String :=
  (nodes.filter fun n => n.model.isSome).map Node.name

/-- The initial `onnx_nodes` list of `unfold_model_node`: nodes whose name
is not a `model_nodes` key. -/
def unfold_ordinary (nodes : List Node) : List Node :=
  nodes.filter fun nd => ¬ (model_node_names nodes).contains nd.name

/-- Python `set.update` on `node_domain_version_pair_sets`, modelled as
ordered insertion without duplicates. -/
def addPairs (s : List (String × Int)) (ps : List (String × Int)) : List (String × Int) :=
  ps.foldl (fun acc p => if acc.contains p then acc else acc ++ [p]) s

/-- The result of `unfold_model_node`: the returned node list plus the
mutations the source performs on the container's `initializer`/`value_info`
lists and on the top container's `node_domain_version_pair_sets`. -/
structure UnfoldRes where
  nodes : List Node
  initAcc : List Init
  viAcc : List Vi
  topNdvps : List (String × Int)

/-- One iteration of the `for node in model_nodes.values()` loop of
`unfold_model_node`: rename the embedded graph under the model node's name
(extending the container accumulators), process each renamed node's `body`
attributes, and record the embedded model's opset pairs. -/
def unfold_step (r : UnfoldRes) (node : Node) : UnfoldRes :=
  match node.model with
  | none => r
  | some m =>
    let rg := rename_graph m.graph node.name r.initAcc r.viAcc
    { nodes := r.nodes ++ rg.1.map fun nd => process_node_body nd node.name,
      initAcc := rg.2.1,
      viAcc := rg.2.2,
      topNdvps := addPairs r.topNdvps (m.opset_import.map fun o => (o.domain, o.version)) }

/-- `ONNXModelUtils.unfold_model_node`: expand every model node's embedded
graph (renamed under the model node's own name, bodies processed), keeping
only ordinary nodes whose name is not a model-node name, and accumulate the
embedded models' opset pairs into the top container's set. -/
def unfold_model_node (c : Container) : UnfoldRes :=
  (model_nodes_list c.nodes).foldl unfold_step
    ⟨unfold_ordinary c.nodes, c.initializer, c.value_info, c.top.ndvps⟩

/-- The nodes contributed by a single model node during unfolding. -/
def unfold_expand_one (node : Node) : List Node :=
  match node.model with
  | none => []
  | some m => (rename_graph_nodes m.graph node.name).map fun nd =>
      process_node_body nd node.name

/-! ### Topological sort -/

/-- Either a real graph node or the synthetic `DynNode` placeholder
(`namedtuple` with `name='placeholder'` and the graph inputs plus
initializers as outputs).  The constructor distinction models Python
object identity for the `node is input_nodes[0]` test. -/
inductive DNode where
  | real (n : Node)
  | placeholder (output : List String)
deriving Inhabited

def DNode.name : DNode → String
  | .real n => n.name
  | .placeholder _ => "placeholder"

def DNode.output : DNode → List String
  | .real n => n.output
  | .placeholder o => o

/-- The errors `topological_sort` can raise: the dangling-reference
`RuntimeError`, the cycle `RuntimeError`, the raw `KeyError` of the outputs
loop, the unique-name `assert`, and recursion-fuel exhaustion (the Python
recursion has no fuel; the fuel passed by `topological_sort` is large
enough for every terminating run). -/
inductive TopoError where
  | dangling (node tensor : String)
  | cycle (node : String)
  | keyErr (tensor : String)
  | assertEmptyName
  | fuelOut
deriving DecidableEq, Repr

/-- The `op_output_map` dict: last write wins, so the pairs are reversed
and looked up front-first. -/
def opOutputMap (nodes : List Node) (input_nodes : List DNode) : List (String × DNode) :=
  ((nodes.map DNode.real ++ input_nodes).flatMap fun nd =>
    nd.output.map fun k => (k, nd)).reverse

/-- Dict assignment `edges[k] = v`: replace in place or append a new key. -/
def edgesSet (e : List (String × List Node)) (k : String) (v : List Node) :
    List (String × List Node) :=
  if e.any fun p => p.1 = k then e.map fun p => if p.1 = k then (k, v) else p
  else e ++ [(k, v)]

/-- Dict read `edges.get(k, [])`. -/
def edgesGet (e : List (String × List Node)) (k : String) : List Node :=
  (e.lookup k).getD []

/-- The inner loop `for x in op.input` of the edge-building pass: skip empty
names, fail with the dangling-reference error when `op_output_map` has no
producer, otherwise append `op` to the producer's successor list. -/
def addConsumer (m : List (String × DNode)) (op : Node) :
    List String → List (String × List Node) → Except TopoError (List (String × List Node))
  | [], e => .ok e
  | x :: xs, e =>
    if x = "" then addConsumer m op xs e
    else
      match m.lookup x with
      | none => .error (.dangling op.name x)
      | some pred => addConsumer m op xs (edgesSet e pred.name (edgesGet e pred.name ++ [op]))

/-- The outer loop `for op in nodes` of the edge-building pass. -/
def buildEdges (m : List (String × DNode)) :
    List Node → List (String × List Node) → Except TopoError (List (String × List Node))
  | [], e => .ok e
  | op :: rest, e =>
    match addConsumer m op op.input e with
    | .error err => .error err
    | .ok e2 => buildEdges m rest e2

/-- The `for y_ in outputs` loop: look up each declared output's producer
(a missing key is a Python `KeyError`) and give it an empty successor entry
when it has none. -/
def ensureOutputs (m : List (String × DNode)) :
    List Vi → List (String × List Node) → Except TopoError (List (String × List Node))
  | [], e => .ok e
  | y :: ys, e =>
    match m.lookup y.name with
    | none => .error (.keyErr y.name)
    | some nd =>
      ensureOutputs m ys (if e.any fun p => p.1 = nd.name then e else edgesSet e nd.name [])

/-- The mutable traversal state of `recursive_helper`: the `visited` and
`unfinished_nodes` name sets and the accumulated `sorted_nodes` list. -/
structure TState where
  visited : List String
  unfinished : List String
  sorted_nodes : List Node

/-- `recursive_helper`: depth-first traversal with cycle detection.  The
explicit fuel only bounds recursion depth; each level consumes one unit. -/
def recHelper (edges : List (String × List Node)) :
    Nat → DNode → TState → Except TopoError TState
  | 0, _, _ => .error .fuelOut
  | fuel + 1, node, st =>
    if node.name ∈ st.visited then .ok st
    else if node.name ∈ st.unfinished then .error (.cycle node.name)
    else
      let st1 : TState := { st with unfinished := node.name :: st.unfinished }
      let afterSucc : Except TopoError TState :=
        if edges.any fun p => p.1 = node.name then
          if node.name = "" then .error .assertEmptyName
          else (edgesGet edges node.name).foldlM
            (fun s succ => recHelper edges fuel (.real succ) s) st1
        else .ok st1
      match afterSucc with
      | .error err => .error err
      | .ok st2 =>
        let st3 : TState :=
          { st2 with unfinished := st2.unfinished.erase node.name,
                     visited := node.name :: st2.visited }
        match node with
        | .placeholder _ => .ok st3
        | .real n => .ok { st3 with sorted_nodes := n :: st3.sorted_nodes }

/-- The `input_nodes` list of `topological_sort`: the placeholder (whose
outputs are the declared inputs followed by the container's initializers)
and every `Constant` node. -/
def input_nodes_of (c : Container) (nodes : List Node) (inputs : List Vi) : List DNode :=
  .placeholder (inputs.map Vi.name ++ c.initializers.map Init.name)
    :: (nodes.filter fun nd => nd.op_type = "Constant").map DNode.real

/-- `ONNXModelUtils.topological_sort`. -/
def topological_sort (c : Container) (nodes : List Node) (inputs : List Vi)
    (outputs : List Vi) : Except TopoError (List Node) :=
  let input_nodes : List DNode := input_nodes_of c nodes inputs
  let m := opOutputMap nodes input_nodes
  match buildEdges m nodes [] with
  | .error e => .error e
  | .ok edges0 =>
    match ensureOutputs m outputs edges0 with
    | .error e => .error e
    | .ok edges =>
      match input_nodes.foldlM (fun st nd => recHelper edges (nodes.length + 2) nd st)
          ⟨[], [], []⟩ with
      | .error e => .error e
      | .ok st => .ok st.sorted_nodes

/-- `ONNXModelUtils._remove_unused_initializers`: keep exactly the
initializers whose name occurs in some node's input list or in the
caller-supplied keep set. -/
def remove_unused_initializers (nodes : List Node) (initializers : List Init)
    (reversed_names : List String) : List Init :=
  let nodes_input_set := nodes.flatMap Node.input
  initializers.filter fun intlz =>
    nodes_input_set.contains intlz.name || reversed_names.contains intlz.name

/-! ### Model joining -/

/-- The `ModelPort` namedtuple handed to a custom `io_mapping` function. -/
structure ModelPort where
  input : List String
  output : List String
deriving DecidableEq, Repr

/-- Joining fails (Python `IndexError`) on an empty model list or when
default positional wiring indexes past a predecessor's output list. -/
inductive JoinError where
  | indexOut
deriving DecidableEq, Repr

/-- The positional prefix `mdl_prefix[i] = "g{}".format(i + 1)`. -/
def gpfx (i : Nat) : String :=
  "g" ++ toString (i + 1)

/-- Dict assignment `port_mapping[k] = v`. -/
def pmSet (pm : List (String × String)) (k v : String) : List (String × String) :=
  if pm.any fun p => p.1 = k then pm.map fun p => if p.1 = k then (k, v) else p
  else pm ++ [(k, v)]

/-- Default positional wiring for one adjacent pair of models: inputs of
model `idx+1` not already mapped are wired to the same-index output of
model `idx`; a missing index is the Python `IndexError`. -/
def wirePair (idx : Nat) (mPrev mNext : Model) (pm : List (String × String)) :
    Except JoinError (List (String × String)) :=
  mNext.graph.input.enum.foldlM
    (fun acc p =>
      let iname := merge_name (gpfx (idx + 1)) p.2.name
      if acc.any fun q => q.1 = iname then .ok acc
      else
        match mPrev.graph.output.get? p.1 with
        | none => .error .indexOut
        | some y => .ok (pmSet acc iname (merge_name (gpfx idx) y.name)))
    pm

/-- The `for _idx in range(len(models) - 1)` default-wiring loop. -/
def buildPortMapping (models : List Model) (pm0 : List (String × String)) :
    Except JoinError (List (String × String)) :=
  (models.zip models.tail).enum.foldlM
    (fun pm q => wirePair q.1 q.2.1 q.2.2 pm) pm0

/-- One iteration of the container-accumulation loop of `join_models`:
extend the initializer/value-info pools with the model's originals, rename
the graph under its positional prefix (which appends the renamed copies),
and append the renamed nodes. -/
def join_step (acc : List Init × List Vi × List Node) (p : Nat × Model) :
    List Init × List Vi × List Node :=
  let rg := rename_graph p.2.graph (gpfx p.1)
    (acc.1 ++ p.2.graph.initializer) (acc.2.1 ++ p.2.graph.value_info)
  (rg.2.1, rg.2.2, acc.2.2 ++ rg.1)

/-- The accumulation loop of `join_models`: the `Container` namedtuple's
`initializer`/`value_info` pools (originals then renamed copies, per model)
and the concatenated renamed node list. -/
def joinPool (models : List Model) : List Init × List Vi × List Node :=
  models.enum.foldl join_step ([], [], [])

/-- The input-rewiring loop of `join_models`: a node with at least one
mapped input gets every mapped input replaced by its producer name. -/
def rewire (pm : List (String × String)) (n : Node) : Node :=
  if n.input.any fun i => pm.any fun q => q.1 = i then
    Node.mk n.name n.op_type
      (n.input.map fun i => ((pm.lookup i).getD i))
      n.output n.attrs n.model
  else n

/-- The opset-union loop: keep the first-seen entry per domain. -/
def joinOpsets (models : List Model) : List Opset :=
  (models.foldl
    (fun acc m =>
      m.opset_import.foldl
        (fun acc2 ops =>
          if acc2.1.contains ops.domain then acc2
          else (acc2.1 ++ [ops.domain], acc2.2 ++ [ops]))
        acc)
    (([], []) : List String × List Opset)).2

/-- The composed graph name: model graph names joined with `_`. -/
def joinName (models : List Model) : String :=
  models.foldl (fun nm m => if nm = "" then m.graph.name else nm ++ "_" ++ m.graph.name) ""

/-- The final assembly of `join_models` (`helper.make_graph` /
`helper.make_model`) once the port mapping `pm` is known: rewire the pooled
renamed nodes, prune dead initializers with an empty keep set, and build
the merged model. -/
def join_assemble (models : List Model) (m0 : Model) (pm : List (String × String)) : Model :=
  let pool := joinPool models
  let nodes := pool.2.2.map (rewire pm)
  Model.mk
    (Graph.mk nodes (joinName models)
      (rename_iter m0.graph.input (gpfx 0))
      (rename_iter (models.getLastD m0).graph.output (gpfx (models.length - 1)))
      (remove_unused_initializers nodes pool.1 [])
      pool.2.1)
    (joinOpsets models)

/-- `join_models` after the initial (possibly `io_mapping`-supplied) port
map `pm0` is fixed: run the default positional wiring, then assemble. -/
def join_after (models : List Model) (m0 : Model) (pm0 : List (String × String)) :
    Except JoinError Model :=
  match buildPortMapping models pm0 with
  | .error e => .error e
  | .ok pm => .ok (join_assemble models m0 pm)

/-- `ONNXModelUtils.join_models`: rename every model under its positional
prefix, wire adjacent models (after any caller-supplied `io_mapping`
overrides), rewrite node inputs through the port mapping, prune dead
initializers with an empty keep set, and assemble the merged model. -/
def join_models (models : List Model)
    (io_mapping : Option (List ModelPort → List (String × String))) :
    Except JoinError Model :=
  match models with
  | [] => .error .indexOut
  | m0 :: _ =>
    let pm0 : List (String × String) :=
      match io_mapping with
      | none => []
      | some f =>
        f (models.enum.map fun p =>
          ModelPort.mk
            (p.2.graph.input.map fun x => merge_name (gpfx p.1) x.name)
            (p.2.graph.output.map fun y => merge_name (gpfx p.1) y.name))
    join_after models m0 pm0

/-! ### Derived views used by the claim statements -/

/-- The tensor names that have a producer in `topological_sort`'s
`op_output_map`: some node's output, a declared graph input, or an
initializer of the container. -/
def produced_names (c : Container) (nodes : List Node) (inputs : List Vi) : List String :=
  nodes.flatMap Node.output ++ inputs.map Vi.name ++ c.initializers.map Init.name

/-- The expansion part of `unfold_model_node`'s result: for every entry of
the `model_nodes` dict, its embedded graph's nodes renamed under the model
node's name and passed through `_process_node_body`. -/
def unfold_expansions (c : Container) : List Node :=
  (model_nodes_list c.nodes).flatMap unfold_expand_one

/-- The initializer pool `join_models` hands to
`_remove_unused_initializers`, spelt as a flat map. -/
def join_init_pool (models : List Model) : List Init :=
  models.enum.flatMap fun p =>
    p.2.graph.initializer ++ rename_iter p.2.graph.initializer (gpfx p.1)

/-! ### Concrete instances for witnesses and counterexamples -/

/-- A container with no nodes, parent, opsets or initializers. -/
def cNone : Container := .mk [] none [] [] [] []

/-- A source-less non-`Constant` node (e.g. a `RandomNormal`). -/
def nRand : Node := .mk "A" "RandomNormal" [] ["y"] [] none

/-- Cycle half 1: consumes `b`, produces `a`. -/
def nCycA : Node := .mk "A" "Relu" ["b"] ["a"] [] none

/-- Cycle half 2: consumes `a`, produces `b`. -/
def nCycB : Node := .mk "B" "Relu" ["a"] ["b"] [] none

/-- A node consuming the undeclared tensor `x`. -/
def nF : Node := .mk "f" "Relu" ["x"] ["y"] [] none

/-- A one-node subgraph used as a nested-graph attribute value. -/
def gInner : Graph :=
  .mk [.mk "inner" "Relu" ["x"] ["z"] [] none] "GI" [⟨"x", 0⟩] [⟨"z", 0⟩] [] []

/-- A graph-valued attribute whose name is `then_branch`, not `body`. -/
def aThen : Attr := .mk "then_branch" gInner 0

/-- An `If`-like node carrying only the `then_branch` subgraph attribute. -/
def nIf : Node := .mk "cond" "If" ["c"] ["o"] [aThen] none

/-- A graph-valued attribute named `body`. -/
def aBody : Attr := .mk "body" gInner 0

/-- A `Loop`-like node carrying a `body` subgraph attribute and a plain
attribute. -/
def nLoop : Node := .mk "loop" "Loop" ["c"] ["o"] [aBody, .mk "stride" gInner 2] none

/-- Single-node graph G1: input `x`, output `y`. -/
def g1C5 : Graph := .mk [.mk "f" "Relu" ["x"] ["y"] [] none] "G1" [⟨"x", 0⟩] [⟨"y", 0⟩] [] []

/-- Single-node graph G2: input `y`, output `z`. -/
def g2C5 : Graph := .mk [.mk "g" "Relu" ["y"] ["z"] [] none] "G2" [⟨"y", 0⟩] [⟨"z", 0⟩] [] []

def m1C5 : Model := .mk g1C5 []

def m2C5 : Model := .mk g2C5 []

/-- A node with an empty name and empty optional input/output slots. -/
def nEmptyish : Node := .mk "" "Relu" ["x", ""] ["y", ""] [] none

/-- A two-node graph whose second node has an empty name. -/
def gEmptyish : Graph :=
  .mk [.mk "first" "Relu" ["x"] ["t"] [] none, nEmptyish] "GE" [⟨"x", 0⟩] [⟨"y", 0⟩] [] []

/-- An embedded model for unfold tests: one inner node `w`. -/
def mInner : Model :=
  .mk (Graph.mk [.mk "w" "Relu" ["a"] ["b"] [] none] "MI" [⟨"a", 0⟩] [⟨"b", 0⟩] [] [])
    [⟨"ai.onnx", 11⟩]

/-- A model node named `dup`. -/
def nModelDup : Node := .mk "dup" "_Model" [] [] [] (some mInner)

/-- An ordinary node whose name collides with the model node `dup`. -/
def nClash : Node := .mk "dup" "Relu" ["u"] ["v"] [] none

/-- An ordinary node with a fresh name. -/
def nKeep : Node := .mk "keep" "Relu" ["u"] ["v"] [] none

/-- A container holding a name-colliding ordinary node, a fresh ordinary
node and a model node. -/
def cUnfold : Container := .mk [nClash, nKeep, nModelDup] none [] [] [] []

/-- An initializer named `w`. -/
def initW : Init := ⟨"w", 7⟩

/-- A one-node graph whose node consumes the initializer `w`. -/
def gW : Graph := .mk [.mk "n" "Add" ["x", "w"] ["y"] [] none] "GW" [⟨"x", 0⟩] [⟨"y", 0⟩] [initW] []

def mW : Model := .mk gW []

/-! ### Claim theorems -/

/-- C1: the claim says `topological_sort` returns a permutation of the node
list for every acyclic graph.  The code violates this: its traversal is
rooted only at the input/initializer placeholder and at `Constant` nodes,
so the acyclic single-node graph whose node `A` (a source-less
`RandomNormal` producing the declared output `y`) is silently dropped and
the empty list — not a permutation of `[A]` — is returned. -/
theorem topological_sort_drops_sourceless_node :
    topological_sort cNone [nRand] [] [⟨"y", 0⟩] = .ok [] ∧
    ¬ List.Perm ([] : List Node) [nRand] := by
  refine ⟨rfl, ?_⟩
  simp

/-- C2: the claim says every data-dependency cycle makes `topological_sort`
fail with the cycle error.  On the two-node cycle `A ↔ B` with no other
producers — the spec's own example — the cycle is unreachable from the
placeholder and `Constant` roots, so the traversal never enters it: the
code silently returns the empty list instead of raising. -/
theorem topological_sort_misses_unreachable_cycle :
    topological_sort cNone [nCycA, nCycB] [] [⟨"a", 0⟩] = .ok [] := rfl

/-- C5: joining the single-node graphs G1 (input `x`, output `y`) and G2
(input `y`, output `z`) with no `io_mapping` yields external input `g1_x`,
external output `g2_z`, and the renamed G2 node consumes `g1_y` (the
renamed G1 output), not `g2_y`. -/
theorem join_models_two_graph_wiring :
    (join_models [m1C5, m2C5] none).map (fun M =>
      (M.graph.input.map Vi.name, M.graph.output.map Vi.name,
       M.graph.node.map Node.name, M.graph.node.map Node.input))
      = .ok (["g1_x"], ["g2_z"], ["g1_f", "g2_g"], [["g1_x"], ["g1_y"]]) ∧
    ("g1_y" : String) ≠ "g2_y" := by
  refine ⟨rfl, ?_⟩
  decide

/-- A string of positive length is not empty. -/
theorem string_length_zero {s : String} (h : s.length = 0) : s = "" := by
  cases s with
  | mk data =>
    have hd : data = [] := List.length_eq_zero.mp h
    subst hd
    rfl

/-- Prefixing never yields the empty string. -/
theorem merge_name_ne_empty (p nm : String) : merge_name p nm ≠ "" := by
  intro h
  have hl := congrArg String.length h
  simp only [merge_name, String.length_append] at hl
  have h1 : ("_" : String).length = 1 := rfl
  have h0 : ("" : String).length = 0 := rfl
  rw [h1, h0] at hl
  omega

/-- Prefixing a non-empty name never yields the bare `prefix_`. -/
theorem merge_name_ne_underscore_only (p nm : String) (h : nm ≠ "") :
    merge_name p nm ≠ merge_name p "" := by
  intro he
  have hl := congrArg String.length he
  simp only [merge_name, String.length_append] at hl
  have h0 : ("" : String).length = 0 := rfl
  rw [h0] at hl
  exact h (string_length_zero (by omega))

/-- C6: renaming a node under any prefix leaves empty input/output slots
empty — a slot is empty after `io_rename` exactly when it was empty before,
and no renamed slot ever becomes the bare `prefix_` string
(`merge_name p ""`). -/
theorem io_rename_keeps_empty_slots (node : Node) (p : String) (idx j : Nat) :
    ((io_rename node p idx).input[j]? = some "" ↔ node.input[j]? = some "") ∧
    ((io_rename node p idx).output[j]? = some "" ↔ node.output[j]? = some "") ∧
    (io_rename node p idx).input[j]? ≠ some (merge_name p "") ∧
    (io_rename node p idx).output[j]? ≠ some (merge_name p "") := by
  have hf : ∀ nm : String, ((if nm = "" then "" else merge_name p nm) = "") ↔ nm = "" := by
    intro nm
    by_cases hnm : nm = "" <;> simp [hnm, merge_name_ne_empty]
  have hg : ∀ nm : String, (if nm = "" then "" else merge_name p nm) ≠ merge_name p "" := by
    intro nm
    by_cases hnm : nm = ""
    · simpa [hnm] using (merge_name_ne_empty p "").symm
    · simpa [hnm] using merge_name_ne_underscore_only p nm hnm
  cases node with
  | mk nm op inp out ats mo =>
    refine ⟨?_, ?_, ?_, ?_⟩ <;>
      simp only [io_rename, Node.input, Node.output, List.getElem?_map]
    · cases hx : inp[j]? with
      | none => simp
      | some a => simp [hf a]
    · cases hx : out[j]? with
      | none => simp
      | some a => simp [hf a]
    · cases hx : inp[j]? with
      | none => simp
      | some a => simp [hg a]
    · cases hx : out[j]? with
      | none => simp
      | some a => simp [hg a]

/-- Witness for C6 at a node carrying an empty optional slot. -/
theorem io_rename_keeps_empty_slots_witness :
    ((io_rename nEmptyish "p" 0).input[1]? = some "" ↔ nEmptyish.input[1]? = some "") ∧
    ((io_rename nEmptyish "p" 0).output[1]? = some "" ↔ nEmptyish.output[1]? = some "") ∧
    (io_rename nEmptyish "p" 0).input[1]? ≠ some (merge_name "p" "") ∧
    (io_rename nEmptyish "p" 0).output[1]? ≠ some (merge_name "p" "") :=
  io_rename_keeps_empty_slots nEmptyish "p" 0 1

/-- C7: the node at position `i` of the renaming pass gets name
`p_op<i>` when its own name is empty and `p_<name>` otherwise. -/
theorem rename_graph_nodes_names (g : Graph) (p : String) (i : Nat) (n : Node)
    (h : g.node[i]? = some n) :
    ∃ n', (rename_graph_nodes g p)[i]? = some n' ∧
      n'.name = if n.name = "" then merge_name p ("op" ++ toString i)
                else merge_name p n.name := by
  refine ⟨io_rename n p i, ?_, ?_⟩
  · simp [rename_graph_nodes, List.getElem?_map, List.getElem?_enum, h]
  · cases n with
    | mk nm op inp out ats mo => simp [io_rename, Node.name]

/-- Witness for C7 at a graph whose second node has an empty name. -/
theorem rename_graph_nodes_names_witness :
    ∃ n', (rename_graph_nodes gEmptyish "p")[1]? = some n' ∧
      n'.name = if nEmptyish.name = "" then merge_name "p" ("op" ++ toString 1)
                else merge_name "p" nEmptyish.name :=
  rename_graph_nodes_names gEmptyish "p" 1 nEmptyish rfl

/-- Membership characterization of the pruner's filter. -/
theorem mem_remove_unused (nodes : List Node) (inits : List Init) (keep : List String)
    (i : Init) :
    i ∈ remove_unused_initializers nodes inits keep ↔
      (i ∈ inits ∧ ((∃ n ∈ nodes, i.name ∈ n.input) ∨ i.name ∈ keep)) := by
  simp [remove_unused_initializers, List.mem_filter, List.mem_flatMap]

/-- C8: the pruner returns exactly the initializers whose name occurs in
some node's input list or in the keep set, and the result is a sublist of
the given initializers (the inputs are not mutated). -/
theorem remove_unused_initializers_spec (nodes : List Node) (inits : List Init)
    (keep : List String) :
    (∀ i : Init, i ∈ remove_unused_initializers nodes inits keep ↔
      (i ∈ inits ∧ ((∃ n ∈ nodes, i.name ∈ n.input) ∨ i.name ∈ keep))) ∧
    (remove_unused_initializers nodes inits keep).Sublist inits :=
  ⟨mem_remove_unused nodes inits keep, List.filter_sublist _⟩

/-- Witness for C8 at a concrete node/initializer/keep-set triple. -/
theorem remove_unused_initializers_spec_witness :
    (∀ i : Init, i ∈ remove_unused_initializers [nF] [initW] ["w"] ↔
      (i ∈ [initW] ∧ ((∃ n ∈ [nF], i.name ∈ n.input) ∨ i.name ∈ ["w"]))) ∧
    (remove_unused_initializers [nF] [initW] ["w"]).Sublist [initW] :=
  remove_unused_initializers_spec [nF] [initW] ["w"]

/-- C3 counterexample: `_process_node_body` leaves a graph-valued attribute
alone unless it is named exactly `body` — an `If` node's `then_branch`
subgraph is returned untouched, its declared input still `x` rather than
the prefixed `p_x` the claim requires. -/
theorem process_node_body_skips_then_branch :
    process_node_body nIf "p" = nIf ∧
    (process_node_body nIf "p").attrs.map (fun a => a.g.input.map Vi.name) = [["x"]] ∧
    rename_iter gInner.input "p" ≠ gInner.input := by
  refine ⟨rfl, rfl, ?_⟩
  decide

/-- C3 (amended): when a model node is unfolded, exactly the attributes
named `body` are rewritten — the subgraph's `value_info` and node lists are
cleared and rebuilt through the renaming pass (which also appends renamed
initializers and value-info records), and its declared inputs and outputs
are renamed under the same prefix; every other attribute is unchanged. -/
theorem process_node_body_rewrites_exactly_body (n : Node) (p : String) (i : Nat) (a : Attr)
    (h : n.attrs[i]? = some a) :
    ∃ a', (process_node_body n p).attrs[i]? = some a' ∧
      (a.name ≠ "body" → a' = a) ∧
      (a.name = "body" →
        a'.name = a.name ∧
        a'.g.node = rename_graph_nodes a.g p ∧
        a'.g.input = rename_iter a.g.input p ∧
        a'.g.output = rename_iter a.g.output p ∧
        a'.g.initializer = a.g.initializer ++ rename_iter a.g.initializer p ∧
        a'.g.value_info = rename_iter a.g.value_info p) := by
  have hmem : a ∈ n.attrs := List.getElem?_mem h
  by_cases hall : (n.attrs.all fun x => x.name ≠ "body") = true
  · have hprop : ∀ x ∈ n.attrs, x.name ≠ "body" := by
      simpa only [List.all_eq_true, decide_eq_true_eq] using hall
    refine ⟨a, ?_, fun _ => rfl, fun hb => absurd hb (hprop a hmem)⟩
    simp only [process_node_body]
    rw [if_pos hall]
    exact h
  · refine ⟨process_attr a p, ?_, ?_, ?_⟩
    · simp only [process_node_body]
      rw [if_neg hall]
      simp only [Node.attrs, List.getElem?_map, h]
      simp
      exact ⟨a, h, rfl⟩
    · intro hn
      simp [process_attr, hn]
    · intro hb
      cases a with
      | mk an ag ai =>
        have hb' : an = "body" := hb
        subst hb'
        simp [process_attr, Attr.name, rename_graph, Attr.g, Attr.i, Graph.node,
          Graph.input, Graph.output, Graph.initializer, Graph.value_info]

/-- The node list accumulated by `unfold_model_node`'s loop is the starting
list followed by each model node's expansion. -/
theorem unfold_foldl_nodes (l : List Node) (r : UnfoldRes) :
    (l.foldl unfold_step r).nodes = r.nodes ++ l.flatMap unfold_expand_one := by
  induction l generalizing r with
  | nil => simp
  | cons n t ih =>
    rw [List.foldl_cons, ih, List.flatMap_cons]
    cases hm : n.model with
    | none => simp [unfold_step, unfold_expand_one, hm]
    | some m => simp [unfold_step, unfold_expand_one, hm, rename_graph]

/-- C9: `unfold_model_node` drops every node whose name coincides with a
model node's name — the returned list is exactly the ordinary nodes with
non-colliding names followed by the model-node expansions. -/
theorem unfold_model_node_collision (c : Container) :
    (∀ nd ∈ c.nodes, nd.name ∈ model_node_names c.nodes → nd ∉ unfold_ordinary c.nodes) ∧
    ((unfold_model_node c).nodes = unfold_ordinary c.nodes ++ unfold_expansions c) ∧
    (∀ nd ∈ c.nodes, nd.model = none → nd.name ∉ model_node_names c.nodes →
      nd ∈ unfold_ordinary c.nodes) := by
  refine ⟨?_, ?_, ?_⟩
  · intro nd hmem hname hin
    have hpred := (List.mem_filter.mp hin).2
    simp only [unfold_ordinary] at hpred ⊢
    simp at hpred
    exact hpred hname
  · simpa [unfold_model_node, unfold_expansions] using
      unfold_foldl_nodes (model_nodes_list c.nodes)
        ⟨unfold_ordinary c.nodes, c.initializer, c.value_info, c.top.ndvps⟩
  · intro nd hmem hmodel hname
    refine List.mem_filter.mpr ⟨hmem, ?_⟩
    simpa using hname

/-- Witness for C9: in `cUnfold` the ordinary node `nClash` shares the
model node's name `dup` and is dropped, while `nKeep` survives. -/
theorem unfold_model_node_collision_witness :
    nClash ∉ unfold_ordinary cUnfold.nodes ∧
    nKeep ∈ unfold_ordinary cUnfold.nodes ∧
    (unfold_model_node cUnfold).nodes
      = unfold_ordinary cUnfold.nodes ++ unfold_expansions cUnfold :=
  ⟨(unfold_model_node_collision cUnfold).1 nClash (List.mem_cons_self _ _) (by decide),
   (unfold_model_node_collision cUnfold).2.2 nKeep
     (List.mem_cons_of_mem _ (List.mem_cons_self _ _)) rfl (by decide),
   (unfold_model_node_collision cUnfold).2.1⟩

/-- The initializer pool accumulated by `join_models`' loop, as the
starting pool followed by per-model originals and renamed copies. -/
theorem join_foldl_init (l : List (Nat × Model)) (acc : List Init × List Vi × List Node) :
    (l.foldl join_step acc).1 = acc.1 ++ l.flatMap fun p =>
      p.2.graph.initializer ++ rename_iter p.2.graph.initializer (gpfx p.1) := by
  induction l generalizing acc with
  | nil => simp
  | cons q t ih =>
    rw [List.foldl_cons, ih, List.flatMap_cons]
    simp [join_step, rename_graph]

/-- The initializer component of `joinPool` is `join_init_pool`. -/
theorem joinPool_init_eq (models : List Model) :
    (joinPool models).1 = join_init_pool models := by
  simpa [joinPool, join_init_pool] using join_foldl_init models.enum ([], [], [])

/-- A successful `join_after` comes from a successful wiring pass. -/
theorem join_after_ok (models : List Model) (m0 : Model) (pm0 : List (String × String))
    (M : Model) (h : join_after models m0 pm0 = .ok M) :
    ∃ pm, buildPortMapping models pm0 = .ok pm ∧ M = join_assemble models m0 pm := by
  cases hb : buildPortMapping models pm0 with
  | error e => simp [join_after, hb] at h
  | ok pm =>
    simp [join_after, hb] at h
    exact ⟨pm, rfl, h.symm⟩

/-- A successful `join_models` run produces `join_assemble` of some port
mapping. -/
theorem join_models_ok_shape (models : List Model)
    (io : Option (List ModelPort → List (String × String))) (M : Model)
    (h : join_models models io = .ok M) :
    ∃ m0 tl pm, models = m0 :: tl ∧ M = join_assemble models m0 pm := by
  cases models with
  | nil => simp [join_models] at h
  | cons m0 tl =>
    obtain ⟨pm, _, hM⟩ := join_after_ok _ _ _ _ h
    exact ⟨m0, tl, pm, rfl, hM⟩

/-- The node list and initializer list of an assembled join. -/
theorem join_assemble_parts (models : List Model) (m0 : Model)
    (pm : List (String × String)) :
    (join_assemble models m0 pm).graph.node = (joinPool models).2.2.map (rewire pm) ∧
    (join_assemble models m0 pm).graph.initializer
      = remove_unused_initializers ((joinPool models).2.2.map (rewire pm))
          (joinPool models).1 [] := by
  constructor <;> simp [join_assemble, Model.graph, Graph.node, Graph.initializer]

/-- C10: the initializer pool handed to pruning contains, for the model at
position `i`, every original un-prefixed initializer and its prefixed
renamed copy; and in any successful join the pruner keeps such an
initializer exactly when some merged node's input equals its name. -/
theorem join_models_initializer_pool (models : List Model)
    (io : Option (List ModelPort → List (String × String)))
    (i : Nat) (m : Model) (init : Init)
    (hm : models[i]? = some m) (hinit : init ∈ m.graph.initializer) :
    (init ∈ (joinPool models).1 ∧
     Init.mk (merge_name (gpfx i) init.name) init.data ∈ (joinPool models).1) ∧
    (∀ M, join_models models io = .ok M →
      M.graph.initializer
        = remove_unused_initializers M.graph.node (joinPool models).1 [] ∧
      (init ∈ M.graph.initializer ↔ ∃ n ∈ M.graph.node, init.name ∈ n.input)) := by
  have henum : (i, m) ∈ models.enum := List.mk_mem_enum_iff_getElem?.mpr hm
  have hpool : init ∈ (joinPool models).1 := by
    rw [joinPool_init_eq]
    exact List.mem_flatMap.mpr ⟨(i, m), henum, List.mem_append_left _ hinit⟩
  have hpoolR : Init.mk (merge_name (gpfx i) init.name) init.data ∈ (joinPool models).1 := by
    rw [joinPool_init_eq]
    refine List.mem_flatMap.mpr ⟨(i, m), henum, List.mem_append_right _ ?_⟩
    refine List.mem_map.mpr ⟨init, hinit, ?_⟩
    cases init
    rfl
  refine ⟨⟨hpool, hpoolR⟩, ?_⟩
  intro M hok
  obtain ⟨m0, tl, pm, hmodels, hM⟩ := join_models_ok_shape models io M hok
  have hparts := join_assemble_parts models m0 pm
  subst hM
  refine ⟨by rw [hparts.2, hparts.1], ?_⟩
  rw [hparts.2, mem_remove_unused, hparts.1]
  simp [hpool]

/-- Witness for C10 at a single-model join whose initializer `w` is only
referenced un-prefixed, hence pruned from the result. -/
theorem join_models_initializer_pool_witness :
    (initW ∈ (joinPool [mW]).1 ∧
     Init.mk (merge_name (gpfx 0) initW.name) initW.data ∈ (joinPool [mW]).1) ∧
    (∀ M, join_models [mW] none = .ok M →
      M.graph.initializer
        = remove_unused_initializers M.graph.node (joinPool [mW]).1 [] ∧
      (initW ∈ M.graph.initializer ↔ ∃ n ∈ M.graph.node, initW.name ∈ n.input)) :=
  join_models_initializer_pool [mW] none 0 mW initW rfl (by decide)

/-- An association-list lookup misses exactly when no pair carries the
key. -/
theorem lookup_none_iff {β : Type} (l : List (String × β)) (x : String) :
    l.lookup x = none ↔ ∀ p ∈ l, p.1 ≠ x := by
  induction l with
  | nil => simp
  | cons q t ih =>
    cases q with
    | mk k v =>
      by_cases hq : x = k
      · subst hq
        simp [List.lookup_cons]
      · rw [List.lookup_cons]
        have hbeq : (x == k) = false := beq_eq_false_iff_ne.mpr hq
        rw [hbeq]
        simp only [List.mem_cons, ih]
        constructor
        · intro h p hp
          rcases hp with rfl | hp
          · exact fun he => hq he.symm
          · exact h p hp
        · intro h p hp
          exact h p (Or.inr hp)

/-- `op_output_map` has key `x` exactly when some (real or synthetic) node
outputs `x`. -/
theorem mem_opOutputMap_keys (nodes : List Node) (inps : List DNode) (x : String) :
    (∃ p ∈ opOutputMap nodes inps, p.1 = x) ↔
      ∃ nd ∈ nodes.map DNode.real ++ inps, x ∈ nd.output := by
  simp only [opOutputMap, List.mem_reverse, List.mem_flatMap, List.mem_map]
  constructor
  · rintro ⟨p, ⟨nd, hnd, k, hk, heq⟩, hx⟩
    subst heq
    exact ⟨nd, hnd, by simpa [← hx] using hk⟩
  · rintro ⟨nd, hnd, hx⟩
    exact ⟨(x, nd), ⟨nd, hnd, x, hx, rfl⟩, rfl⟩

/-- The outputs of `topological_sort`'s node pool are exactly the produced
tensor names: node outputs, declared inputs and initializers. -/
theorem produced_names_iff (c : Container) (nodes : List Node) (inputs : List Vi)
    (x : String) :
    (∃ nd ∈ nodes.map DNode.real ++ input_nodes_of c nodes inputs, x ∈ nd.output) ↔
      x ∈ produced_names c nodes inputs := by
  constructor
  · rintro ⟨nd, hnd, hx⟩
    rcases List.mem_append.mp hnd with hreal | hinp
    · obtain ⟨n, hn, rfl⟩ := List.mem_map.mp hreal
      exact List.mem_append.mpr (Or.inl (List.mem_append.mpr (Or.inl
        (List.mem_flatMap.mpr ⟨n, hn, by simpa [DNode.output] using hx⟩))))
    · rcases List.mem_cons.mp hinp with rfl | hconst
      · simp only [DNode.output] at hx
        rcases List.mem_append.mp hx with h | h
        · exact List.mem_append.mpr (Or.inl (List.mem_append.mpr (Or.inr h)))
        · exact List.mem_append.mpr (Or.inr h)
      · obtain ⟨n, hn, rfl⟩ := List.mem_map.mp hconst
        have hn' : n ∈ nodes := List.mem_filter.mp hn |>.1
        exact List.mem_append.mpr (Or.inl (List.mem_append.mpr (Or.inl
          (List.mem_flatMap.mpr ⟨n, hn', by simpa [DNode.output] using hx⟩))))
  · intro hx
    rcases List.mem_append.mp hx with h1 | hinit
    · rcases List.mem_append.mp h1 with hout | hin
      · obtain ⟨n, hn, hxn⟩ := List.mem_flatMap.mp hout
        exact ⟨.real n, List.mem_append.mpr (Or.inl (List.mem_map.mpr ⟨n, hn, rfl⟩)),
          by simpa [DNode.output] using hxn⟩
      · refine ⟨.placeholder (inputs.map Vi.name ++ c.initializers.map Init.name),
          List.mem_append.mpr (Or.inr (List.mem_cons.mpr (Or.inl rfl))), ?_⟩
        simp only [DNode.output]
        exact List.mem_append.mpr (Or.inl hin)
    · refine ⟨.placeholder (inputs.map Vi.name ++ c.initializers.map Init.name),
        List.mem_append.mpr (Or.inr (List.mem_cons.mpr (Or.inl rfl))), ?_⟩
      simp only [DNode.output]
      exact List.mem_append.mpr (Or.inr hinit)

/-- `op_output_map` lookup failure is exactly absence from the produced
names. -/
theorem lookup_opOutputMap_none_iff (c : Container) (nodes : List Node)
    (inputs : List Vi) (x : String) :
    (opOutputMap nodes (input_nodes_of c nodes inputs)).lookup x = none ↔
      x ∉ produced_names c nodes inputs := by
  rw [lookup_none_iff, ← produced_names_iff c nodes inputs x,
    ← mem_opOutputMap_keys nodes (input_nodes_of c nodes inputs) x]
  constructor
  · rintro h ⟨p, hp, hx⟩
    exact h p hp hx
  · intro h p hp hx
    exact h ⟨p, hp, hx⟩

/-- The per-node edge-building loop succeeds when every non-empty input
has a producer. -/
theorem addConsumer_ok (m : List (String × DNode)) (op : Node) (xs : List String)
    (e : List (String × List Node)) (h : ∀ x ∈ xs, x ≠ "" → (m.lookup x).isSome) :
    ∃ e', addConsumer m op xs e = .ok e' := by
  induction xs generalizing e with
  | nil => exact ⟨e, rfl⟩
  | cons x t ih =>
    by_cases hx : x = ""
    · subst hx
      simp only [addConsumer, if_pos rfl]
      exact ih e fun y hy => h y (List.mem_cons_of_mem _ hy)
    · have hs := h x (List.mem_cons_self _ _) hx
      obtain ⟨v, hv⟩ := Option.isSome_iff_exists.mp hs
      simp only [addConsumer, if_neg hx, hv]
      exact ih _ fun y hy => h y (List.mem_cons_of_mem _ hy)

/-- The per-node edge-building loop raises the dangling-reference error,
naming the node and an offending tensor, when some non-empty input has no
producer. -/
theorem addConsumer_error (m : List (String × DNode)) (op : Node) (xs : List String)
    (e : List (String × List Node)) (h : ∃ x ∈ xs, x ≠ "" ∧ m.lookup x = none) :
    ∃ x, addConsumer m op xs e = .error (.dangling op.name x) ∧
      x ∈ xs ∧ x ≠ "" ∧ m.lookup x = none := by
  induction xs generalizing e with
  | nil => simp at h
  | cons x t ih =>
    by_cases hx : x = ""
    · subst hx
      simp only [addConsumer, if_pos rfl]
      have h' : ∃ y ∈ t, y ≠ "" ∧ m.lookup y = none := by
        obtain ⟨y, hy, hyne, hyl⟩ := h
        rcases List.mem_cons.mp hy with rfl | hyt
        · exact absurd rfl hyne
        · exact ⟨y, hyt, hyne, hyl⟩
      obtain ⟨y, hres, hyt, hyne, hyl⟩ := ih e h'
      exact ⟨y, hres, List.mem_cons_of_mem _ hyt, hyne, hyl⟩
    · cases hl : m.lookup x with
      | none =>
        refine ⟨x, ?_, List.mem_cons_self _ _, hx, hl⟩
        simp only [addConsumer, if_neg hx, hl]
      | some v =>
        simp only [addConsumer, if_neg hx, hl]
        have h' : ∃ y ∈ t, y ≠ "" ∧ m.lookup y = none := by
          obtain ⟨y, hy, hyne, hyl⟩ := h
          rcases List.mem_cons.mp hy with rfl | hyt
          · rw [hl] at hyl
            exact absurd hyl (by simp)
          · exact ⟨y, hyt, hyne, hyl⟩
        obtain ⟨y, hres, hyt, hyne, hyl⟩ := ih _ h'
        exact ⟨y, hres, List.mem_cons_of_mem _ hyt, hyne, hyl⟩

/-- The whole edge-building pass raises a dangling-reference error whenever
some node has a producer-less non-empty input. -/
theorem buildEdges_error (m : List (String × DNode)) (ops : List Node)
    (e : List (String × List Node))
    (h : ∃ op ∈ ops, ∃ x ∈ op.input, x ≠ "" ∧ m.lookup x = none) :
    ∃ op x, buildEdges m ops e = .error (.dangling op.name x) ∧
      op ∈ ops ∧ x ∈ op.input ∧ x ≠ "" ∧ m.lookup x = none := by
  induction ops generalizing e with
  | nil => simp at h
  | cons op t ih =>
    by_cases hop : ∃ x ∈ op.input, x ≠ "" ∧ m.lookup x = none
    · obtain ⟨x, hres, hxm, hxne, hxl⟩ := addConsumer_error m op op.input e hop
      refine ⟨op, x, ?_, List.mem_cons_self _ _, hxm, hxne, hxl⟩
      simp only [buildEdges, hres]
    · push_neg at hop
      have hok : ∀ x ∈ op.input, x ≠ "" → (m.lookup x).isSome := by
        intro x hx hxne
        have := hop x hx hxne
        cases hl : m.lookup x with
        | none => exact absurd hl this
        | some v => rfl
      obtain ⟨e', he'⟩ := addConsumer_ok m op op.input e hok
      have h' : ∃ op' ∈ t, ∃ x ∈ op'.input, x ≠ "" ∧ m.lookup x = none := by
        obtain ⟨op', hop', hx⟩ := h
        rcases List.mem_cons.mp hop' with rfl | hopt
        · obtain ⟨x, hx1, hx2, hx3⟩ := hx
          exact absurd hx3 (hop x hx1 hx2)
        · exact ⟨op', hopt, hx⟩
      obtain ⟨op', x, hres, hopt, hxm, hxne, hxl⟩ := ih e' h'
      refine ⟨op', x, ?_, List.mem_cons_of_mem _ hopt, hxm, hxne, hxl⟩
      simp only [buildEdges, he', hres]

/-- C4: whenever some node's input list names a non-empty tensor with no
producer among node outputs, declared inputs and initializers,
`topological_sort` fails with a dangling-reference error carrying the
offending node's name and the unresolved tensor name. -/
theorem topological_sort_dangling (c : Container) (nodes : List Node)
    (inputs outputs : List Vi)
    (h : ∃ op ∈ nodes, ∃ x ∈ op.input, x ≠ "" ∧ x ∉ produced_names c nodes inputs) :
    ∃ op x, op ∈ nodes ∧ x ∈ op.input ∧ x ≠ "" ∧ x ∉ produced_names c nodes inputs ∧
      topological_sort c nodes inputs outputs = .error (.dangling op.name x) := by
  have h' : ∃ op ∈ nodes, ∃ x ∈ op.input, x ≠ "" ∧
      (opOutputMap nodes (input_nodes_of c nodes inputs)).lookup x = none := by
    obtain ⟨op, hop, x, hx, hne, hnp⟩ := h
    exact ⟨op, hop, x, hx, hne, (lookup_opOutputMap_none_iff c nodes inputs x).mpr hnp⟩
  obtain ⟨op, x, hres, hop, hx, hne, hl⟩ :=
    buildEdges_error (opOutputMap nodes (input_nodes_of c nodes inputs)) nodes [] h'
  refine ⟨op, x, hop, hx, hne, (lookup_opOutputMap_none_iff c nodes inputs x).mp hl, ?_⟩
  simp only [topological_sort]
  rw [hres]

/-- Witness for C4: node `f` consumes the undeclared tensor `x`. -/
theorem topological_sort_dangling_witness :
    ∃ op x, op ∈ [nF] ∧ x ∈ op.input ∧ x ≠ "" ∧ x ∉ produced_names cNone [nF] [] ∧
      topological_sort cNone [nF] [] [⟨"y", 0⟩] = .error (.dangling op.name x) :=
  topological_sort_dangling cNone [nF] [] [⟨"y", 0⟩]
    ⟨nF, List.mem_cons_self _ _, "x", List.mem_cons_self _ _, by decide, by decide⟩

/-- Witness for the amended C3 at a `Loop` node with a `body` attribute. -/
theorem process_node_body_rewrites_exactly_body_witness :
    ∃ a', (process_node_body nLoop "p").attrs[0]? = some a' ∧
      (aBody.name ≠ "body" → a' = aBody) ∧
      (aBody.name = "body" →
        a'.name = aBody.name ∧
        a'.g.node = rename_graph_nodes aBody.g "p" ∧
        a'.g.input = rename_iter aBody.g.input "p" ∧
        a'.g.output = rename_iter aBody.g.output "p" ∧
        a'.g.initializer = aBody.g.initializer ++ rename_iter aBody.g.initializer "p" ∧
        a'.g.value_info = rename_iter aBody.g.value_info "p") :=
  process_node_body_rewrites_exactly_body nLoop "p" 0 aBody rfl

end OnnxUtils
